import Mathlib

/-!
Verification of the Impulse_YADRO config-generator (src/main.py).

The program has two independent components:
* `XMLProcessor` — parses a flat class/aggregation description into a
  dictionary of class descriptors, renders a nested containment tree
  (`generate_config_xml` via `build_xml_structure`) and a flat metadata
  list (`generate_meta_json`);
* `ConfigDeltaProcessor` — `generate`/`apply` for three-part deltas
  between two flat string-keyed dictionaries.

Python dictionaries are embedded as association lists `List (String × V)`
whose keys are pairwise distinct (`KeysNodup`); the operations below
reproduce CPython dict semantics: insertion order is preserved, writing an
existing key keeps its position, writing a fresh key appends at the end,
deletion removes the entry.
-/

namespace Impulse

variable {V : Type}

/-- First-match lookup, `d[k]` / `d.get(k)` on a Python dict. -/
def lookup : List (String × V) → String → Option V
  | [], _ => none
  | p :: rest, k => if p.1 = k then some p.2 else lookup rest k

/-- `k in d` on a Python dict. -/
def hasKey (m : List (String × V)) (k : String) : Bool :=
  (lookup m k).isSome

/-- `del d[k]` on a Python dict (under `KeysNodup` exactly one entry holds
key `k`, so filtering is removal of that entry). -/
def eraseKey (m : List (String × V)) (k : String) : List (String × V) :=
  m.filter (fun p => p.1 ≠ k)

/-- Overwrite the value stored at key `k`, keeping the entry's position;
does nothing when the key is absent. -/
def setValue (m : List (String × V)) (k : String) (v : V) : List (String × V) :=
  m.map (fun p => if p.1 = k then (k, v) else p)

/-- `d[k] = v` on a Python dict: overwrite in place when the key exists,
append a fresh entry otherwise. -/
def setKey (m : List (String × V)) (k : String) (v : V) : List (String × V) :=
  if hasKey m k then setValue m k v else m ++ [(k, v)]

/-- The dict invariant: keys are pairwise distinct. -/
def KeysNodup (m : List (String × V)) : Prop :=
  (m.map Prod.fst).Nodup

instance (m : List (String × V)) : Decidable (KeysNodup m) := by
  unfold KeysNodup; infer_instance

/-- Two dicts are equal in Python's sense (`==` on dicts): same key set,
same value at every key, order-insensitive. -/
def dictEq (m₁ m₂ : List (String × V)) : Prop :=
  ∀ k, lookup m₁ k = lookup m₂ k

theorem lookup_eq_none_iff (m : List (String × V)) (k : String) :
    lookup m k = none ↔ k ∉ m.map Prod.fst := by
  induction m with
  | nil => simp [lookup]
  | cons p rest ih =>
    simp only [lookup, List.map_cons, List.mem_cons]
    by_cases h : p.1 = k
    · simp [h]
    · rw [if_neg h, ih]
      constructor
      · intro hn hmem
        rcases hmem with he | hm
        · exact h he.symm
        · exact hn hm
      · intro hn hm
        exact hn (Or.inr hm)

theorem lookup_isSome_iff (m : List (String × V)) (k : String) :
    (lookup m k).isSome = true ↔ k ∈ m.map Prod.fst := by
  constructor
  · intro h
    by_contra hk
    rw [← lookup_eq_none_iff] at hk
    rw [hk] at h
    simp at h
  · intro h
    cases hl : lookup m k with
    | none => exact absurd ((lookup_eq_none_iff m k).mp hl) (by simp [h])
    | some v => rfl

theorem mem_of_lookup_eq_some {m : List (String × V)} {k : String} {v : V}
    (h : lookup m k = some v) : (k, v) ∈ m := by
  induction m with
  | nil => simp [lookup] at h
  | cons p rest ih =>
    simp only [lookup] at h
    by_cases hp : p.1 = k
    · rw [if_pos hp] at h
      have h2 : p.2 = v := Option.some.inj h
      have hpv : p = (k, v) := Prod.ext hp h2
      rw [show ((k, v) : String × V) = p from hpv.symm]
      exact List.mem_cons_self p rest
    · rw [if_neg hp] at h
      exact List.mem_cons_of_mem _ (ih h)

theorem isSome_lookup_of_mem {m : List (String × V)} {k : String} {v : V}
    (h : (k, v) ∈ m) : (lookup m k).isSome = true := by
  rw [lookup_isSome_iff]
  exact List.mem_map_of_mem Prod.fst h

theorem lookup_eq_some_of_mem {m : List (String × V)} {k : String} {v : V}
    (hm : KeysNodup m) (h : (k, v) ∈ m) : lookup m k = some v := by
  induction m with
  | nil => simp at h
  | cons p rest ih =>
    rcases List.mem_cons.mp h with h | h
    · rw [← h]; simp [lookup]
    · have hk : k ∈ rest.map Prod.fst := List.mem_map_of_mem Prod.fst h
      have hne : p.1 ≠ k := by
        intro he
        have : p.1 ∉ rest.map Prod.fst := (List.nodup_cons.mp hm).1
        exact this (he ▸ hk)
      have hrest : KeysNodup rest := (List.nodup_cons.mp hm).2
      simp only [lookup, if_neg hne]
      exact ih hrest h

theorem lookup_eraseKey (m : List (String × V)) (k k' : String) :
    lookup (eraseKey m k) k' = if k' = k then none else lookup m k' := by
  induction m with
  | nil => simp [lookup, eraseKey]
  | cons p rest ih =>
    unfold eraseKey at ih ⊢
    by_cases hpk : p.1 = k
    · rw [List.filter_cons_of_neg (by simp [hpk])]
      rw [ih]
      by_cases hk : k' = k
      · rw [if_pos hk, if_pos hk]
      · rw [if_neg hk, if_neg hk]
        simp only [lookup]
        rw [if_neg (by rw [hpk]; exact fun he => hk he.symm)]
    · rw [List.filter_cons_of_pos (by simp [hpk])]
      simp only [lookup]
      by_cases hpk' : p.1 = k'
      · rw [if_pos hpk']
        have hk : ¬ k' = k := by
          intro hk
          exact hpk (by rw [hpk', hk])
        rw [if_neg hk, if_pos hpk']
      · rw [if_neg hpk', ih]
        by_cases hk : k' = k
        · rw [if_pos hk, if_pos hk]
        · rw [if_neg hk, if_neg hk, if_neg hpk']

theorem lookup_setValue (m : List (String × V)) (k k' : String) (v : V) :
    lookup (setValue m k v) k' =
      if k' = k then (lookup m k').map (fun _ => v) else lookup m k' := by
  induction m with
  | nil => simp [lookup, setValue]
  | cons p rest ih =>
    unfold setValue at ih ⊢
    simp only [List.map_cons]
    by_cases hpk : p.1 = k
    · rw [if_pos hpk]
      simp only [lookup]
      by_cases hk : k' = k
      · rw [if_pos hk, if_pos hk.symm, if_pos (hpk.trans hk.symm)]
        rfl
      · rw [if_neg (fun he : k = k' => hk he.symm), if_neg hk,
          if_neg (fun he : p.1 = k' => hk (he.symm.trans hpk)), ih, if_neg hk]
    · rw [if_neg hpk]
      simp only [lookup]
      by_cases hpk' : p.1 = k'
      · have hk : ¬ k' = k := by
          intro hk
          exact hpk (by rw [hpk', hk])
        rw [if_pos hpk', if_neg hk, if_pos hpk']
      · rw [if_neg hpk', if_neg hpk', ih]

theorem lookup_append (m₁ m₂ : List (String × V)) (k : String) :
    lookup (m₁ ++ m₂) k = (lookup m₁ k).or (lookup m₂ k) := by
  induction m₁ with
  | nil => simp [lookup]
  | cons p rest ih =>
    simp only [List.cons_append, lookup]
    by_cases hpk : p.1 = k
    · rw [if_pos hpk, if_pos hpk]
      rfl
    · rw [if_neg hpk, if_neg hpk]
      exact ih

theorem lookup_setKey (m : List (String × V)) (k k' : String) (v : V) :
    lookup (setKey m k v) k' = if k' = k then some v else lookup m k' := by
  unfold setKey
  by_cases h : hasKey m k
  · rw [if_pos h, lookup_setValue]
    by_cases hk : k' = k
    · rw [if_pos hk, if_pos hk, hk]
      have : (lookup m k).isSome = true := h
      rcases Option.isSome_iff_exists.mp this with ⟨w, hw⟩
      rw [hw]
      rfl
    · rw [if_neg hk, if_neg hk]
  · rw [if_neg h, lookup_append]
    have hnone : lookup m k = none := by
      cases hl : lookup m k with
      | none => rfl
      | some w =>
        unfold hasKey at h
        rw [hl] at h
        simp at h
    by_cases hk : k' = k
    · rw [if_pos hk, hk, hnone]
      simp [lookup]
    · rw [if_neg hk]
      simp only [lookup, if_neg (fun he : k = k' => hk he.symm)]
      cases lookup m k' <;> rfl

theorem eraseKey_of_not_hasKey {m : List (String × V)} {k : String}
    (h : hasKey m k = false) : eraseKey m k = m := by
  have hnone : lookup m k = none := by
    cases hl : lookup m k with
    | none => rfl
    | some w =>
      unfold hasKey at h
      rw [hl] at h
      simp at h
  have hk : k ∉ m.map Prod.fst := (lookup_eq_none_iff m k).mp hnone
  unfold eraseKey
  apply List.filter_eq_self.mpr
  intro p hp
  have hmem : p.1 ∈ m.map Prod.fst := List.mem_map_of_mem Prod.fst hp
  simp only [ne_eq, decide_eq_true_eq]
  intro he
  exact hk (he ▸ hmem)

/-! ### ConfigDeltaProcessor (src/main.py, lines 124-168)

`generate` walks `patched` for additions, then `base`'s keys for deletions
and updates; `apply` copies `base` and mutates the copy: deletions, then
updates (only existing keys), then additions.  Python's `from`/`to` fields
of an update record are named `fromV`/`toV` here (`from` is reserved). -/

/-- One entry of `delta['updates']`: `{'key': …, 'from': …, 'to': …}`. -/
structure Update (V : Type) where
  key : String
  fromV : V
  toV : V
  deriving DecidableEq, Repr

/-- The three-part delta record produced by `ConfigDeltaProcessor.generate`. -/
structure Delta (V : Type) where
  additions : List (String × V)
  deletions : List String
  updates : List (Update V)
  deriving DecidableEq, Repr

/-- `ConfigDeltaProcessor.generate(config_json, patched_config_json)`:
first loop collects additions from `patched`'s items, second collects
deletions from `base`'s keys, third collects updates from `base`'s keys. -/
def generateDelta [DecidableEq V] (base patched : List (String × V)) : Delta V :=
  { additions := patched.filter (fun p => !(hasKey base p.1)),
    deletions := (base.map Prod.fst).filter (fun k => !(hasKey patched k)),
    updates := (base.map Prod.fst).filterMap (fun k =>
      match lookup base k, lookup patched k with
      | some v, some w => if v ≠ w then some ⟨k, v, w⟩ else none
      | _, _ => none) }

/-- `if key in result: del result[key]` — one iteration of the deletion loop. -/
def delIfPresent (m : List (String × V)) (k : String) : List (String × V) :=
  if hasKey m k then eraseKey m k else m

/-- `if update['key'] in result: result[update['key']] = update['to']` —
one iteration of the update loop. -/
def updIfPresent (m : List (String × V)) (u : Update V) : List (String × V) :=
  if hasKey m u.key then setValue m u.key u.toV else m

/-- The deletion loop of `ConfigDeltaProcessor.apply`. -/
def applyDeletions (m : List (String × V)) (dels : List String) : List (String × V) :=
  dels.foldl delIfPresent m

/-- The update loop of `ConfigDeltaProcessor.apply`. -/
def applyUpdates (m : List (String × V)) (upds : List (Update V)) : List (String × V) :=
  upds.foldl updIfPresent m

/-- `result[addition['key']] = addition['value']` — one iteration of the
addition loop. -/
def addStep (m : List (String × V)) (a : String × V) : List (String × V) :=
  setKey m a.1 a.2

/-- The addition loop of `ConfigDeltaProcessor.apply`. -/
def applyAdditions (m : List (String × V)) (adds : List (String × V)) : List (String × V) :=
  adds.foldl addStep m

/-- `ConfigDeltaProcessor.apply(config_json, delta)`: copy the base, then
run the three loops in the fixed order deletions → updates → additions. -/
def applyDelta (base : List (String × V)) (delta : Delta V) : List (String × V) :=
  applyAdditions (applyUpdates (applyDeletions base delta.deletions) delta.updates)
    delta.additions

theorem delIfPresent_eq_eraseKey (m : List (String × V)) (k : String) :
    delIfPresent m k = eraseKey m k := by
  unfold delIfPresent
  by_cases h : hasKey m k
  · rw [if_pos h]
  · rw [if_neg h, eraseKey_of_not_hasKey (Bool.of_not_eq_true h)]

theorem applyDeletions_nil (m : List (String × V)) : applyDeletions m [] = m := rfl

theorem applyDeletions_cons (m : List (String × V)) (d : String) (rest : List String) :
    applyDeletions m (d :: rest) = applyDeletions (delIfPresent m d) rest := rfl

theorem applyUpdates_nil (m : List (String × V)) : applyUpdates m [] = m := rfl

theorem applyUpdates_cons (m : List (String × V)) (u : Update V) (rest : List (Update V)) :
    applyUpdates m (u :: rest) = applyUpdates (updIfPresent m u) rest := rfl

theorem applyAdditions_nil (m : List (String × V)) : applyAdditions m [] = m := rfl

theorem applyAdditions_cons (m : List (String × V)) (a : String × V)
    (rest : List (String × V)) :
    applyAdditions m (a :: rest) = applyAdditions (setKey m a.1 a.2) rest := rfl

theorem lookup_applyDeletions (m : List (String × V)) (dels : List String) (k : String) :
    lookup (applyDeletions m dels) k = if k ∈ dels then none else lookup m k := by
  induction dels generalizing m with
  | nil => simp [applyDeletions]
  | cons d rest ih =>
    rw [applyDeletions_cons, ih, delIfPresent_eq_eraseKey, lookup_eraseKey]
    by_cases hk : k ∈ rest
    · simp [hk]
    · by_cases hkd : k = d
      · simp [hk, hkd]
      · simp [hk, hkd]

theorem lookup_updIfPresent (m : List (String × V)) (u : Update V) (k : String) :
    lookup (updIfPresent m u) k =
      if k = u.key then (lookup m k).map (fun _ => u.toV) else lookup m k := by
  unfold updIfPresent
  by_cases h : hasKey m u.key
  · rw [if_pos h, lookup_setValue]
  · rw [if_neg h]
    by_cases hk : k = u.key
    · have hnone : lookup m u.key = none := by
        cases hl : lookup m u.key with
        | none => rfl
        | some w => unfold hasKey at h; rw [hl] at h; simp at h
      rw [if_pos hk, hk, hnone]
      rfl
    · rw [if_neg hk]

theorem lookup_applyUpdates_of_not_mem {upds : List (Update V)} {k : String}
    (h : ∀ u ∈ upds, u.key ≠ k) (m : List (String × V)) :
    lookup (applyUpdates m upds) k = lookup m k := by
  induction upds generalizing m with
  | nil => simp [applyUpdates]
  | cons u rest ih =>
    rw [applyUpdates_cons, ih (fun u hu => h u (List.mem_cons_of_mem _ hu)),
      lookup_updIfPresent, if_neg (fun he => h u (List.mem_cons_self u rest) he.symm)]

theorem lookup_applyUpdates_of_none {upds : List (Update V)} {m : List (String × V)}
    {k : String} (h : lookup m k = none) :
    lookup (applyUpdates m upds) k = none := by
  induction upds generalizing m with
  | nil => simpa [applyUpdates] using h
  | cons u rest ih =>
    rw [applyUpdates_cons]
    apply ih
    rw [lookup_updIfPresent]
    by_cases hk : k = u.key
    · rw [if_pos hk, h]; rfl
    · rw [if_neg hk]; exact h

theorem lookup_applyUpdates_unique {upds : List (Update V)} {u : Update V} {k : String}
    (hnd : (upds.map Update.key).Nodup) (hu : u ∈ upds) (hk : u.key = k)
    (m : List (String × V)) :
    lookup (applyUpdates m upds) k = (lookup m k).map (fun _ => u.toV) := by
  induction upds generalizing m with
  | nil => simp at hu
  | cons u₀ rest ih =>
    rw [applyUpdates_cons]
    rcases List.mem_cons.mp hu with heq | hmem
    · have hrest : ∀ w ∈ rest, w.key ≠ k := by
        intro w hw he
        have hno : u₀.key ∉ rest.map Update.key := (List.nodup_cons.mp hnd).1
        have hwk : w.key ∈ rest.map Update.key := List.mem_map_of_mem Update.key hw
        rw [he, ← hk, heq] at hwk
        exact hno hwk
      have hku : k = u₀.key := by rw [← heq, hk]
      rw [lookup_applyUpdates_of_not_mem hrest, lookup_updIfPresent, if_pos hku, heq]
    · have hne : u₀.key ≠ k := by
        intro he
        have hno : u₀.key ∉ rest.map Update.key := (List.nodup_cons.mp hnd).1
        have hk' : u.key ∈ rest.map Update.key := List.mem_map_of_mem Update.key hmem
        rw [hk, ← he] at hk'
        exact hno hk'
      rw [ih (List.nodup_cons.mp hnd).2 hmem, lookup_updIfPresent,
        if_neg (fun he => hne he.symm)]

theorem lookup_applyAdditions_of_not_mem {adds : List (String × V)} {k : String}
    (h : ∀ a ∈ adds, a.1 ≠ k) (m : List (String × V)) :
    lookup (applyAdditions m adds) k = lookup m k := by
  induction adds generalizing m with
  | nil => simp [applyAdditions]
  | cons a rest ih =>
    rw [applyAdditions_cons, ih (fun a ha => h a (List.mem_cons_of_mem _ ha)),
      lookup_setKey, if_neg (fun he => h a (List.mem_cons_self a rest) he.symm)]

theorem lookup_applyAdditions_unique {adds : List (String × V)} {k : String} {v : V}
    (hnd : (adds.map Prod.fst).Nodup) (hmem : (k, v) ∈ adds) (m : List (String × V)) :
    lookup (applyAdditions m adds) k = some v := by
  induction adds generalizing m with
  | nil => simp at hmem
  | cons a rest ih =>
    rw [applyAdditions_cons]
    rcases List.mem_cons.mp hmem with heq | hmem'
    · have hka : k = a.1 := congrArg Prod.fst heq
      have hva : v = a.2 := congrArg Prod.snd heq
      have hrest : ∀ w ∈ rest, w.1 ≠ k := by
        intro w hw he
        have hno : a.1 ∉ rest.map Prod.fst := (List.nodup_cons.mp hnd).1
        have hwk : w.1 ∈ rest.map Prod.fst := List.mem_map_of_mem Prod.fst hw
        rw [he, hka] at hwk
        exact hno hwk
      rw [lookup_applyAdditions_of_not_mem hrest, lookup_setKey, if_pos hka, ← hva]
    · have hne : a.1 ≠ k := by
        intro he
        have hno : a.1 ∉ rest.map Prod.fst := (List.nodup_cons.mp hnd).1
        have hkmem : k ∈ rest.map Prod.fst := List.mem_map_of_mem Prod.fst hmem'
        rw [← he] at hkmem
        exact hno hkmem
      exact ih (List.nodup_cons.mp hnd).2 hmem' _

theorem hasKey_eq_false_iff (m : List (String × V)) (k : String) :
    hasKey m k = false ↔ lookup m k = none := by
  unfold hasKey
  cases lookup m k <;> simp

theorem mem_additions_iff [DecidableEq V] (base patched : List (String × V))
    (k : String) (v : V) :
    (k, v) ∈ (generateDelta base patched).additions ↔
      (k, v) ∈ patched ∧ lookup base k = none := by
  unfold generateDelta
  simp only [List.mem_filter, Bool.not_eq_true', hasKey_eq_false_iff]

theorem mem_deletions_iff [DecidableEq V] (base patched : List (String × V))
    (k : String) :
    k ∈ (generateDelta base patched).deletions ↔
      k ∈ base.map Prod.fst ∧ lookup patched k = none := by
  unfold generateDelta
  simp only [List.mem_filter, Bool.not_eq_true', hasKey_eq_false_iff]

theorem mem_updates_iff [DecidableEq V] (base patched : List (String × V))
    (u : Update V) :
    u ∈ (generateDelta base patched).updates ↔
      lookup base u.key = some u.fromV ∧ lookup patched u.key = some u.toV ∧
        u.fromV ≠ u.toV := by
  unfold generateDelta
  simp only [List.mem_filterMap]
  constructor
  · rintro ⟨k, _, hg⟩
    cases hbl : lookup base k with
    | none => rw [hbl] at hg; simp at hg
    | some v =>
      cases hpl : lookup patched k with
      | none => rw [hbl, hpl] at hg; simp at hg
      | some w =>
        rw [hbl, hpl] at hg
        dsimp only at hg
        by_cases hvw : v = w
        · rw [if_neg (by simpa using hvw)] at hg; simp at hg
        · rw [if_pos (by simpa using hvw)] at hg
          have hu : u = ⟨k, v, w⟩ := (Option.some.inj hg).symm
          rw [hu]
          exact ⟨hbl, hpl, hvw⟩
  · rintro ⟨hb, hp, hvw⟩
    refine ⟨u.key, ?_, ?_⟩
    · rw [← lookup_isSome_iff, hb]; rfl
    · rw [hb, hp]
      dsimp only
      rw [if_pos (by simpa using hvw)]

theorem additions_keys_nodup [DecidableEq V] (base : List (String × V))
    {patched : List (String × V)} (hp : KeysNodup patched) :
    ((generateDelta base patched).additions.map Prod.fst).Nodup := by
  unfold generateDelta
  exact List.Nodup.sublist (List.Sublist.map Prod.fst (List.filter_sublist patched)) hp

theorem filterMap_key_sublist {g : String → Option (Update V)}
    (hg : ∀ k u, g k = some u → u.key = k) :
    ∀ l : List String, ((l.filterMap g).map Update.key).Sublist l := by
  intro l
  induction l with
  | nil => simp
  | cons a rest ih =>
    cases hga : g a with
    | none => rw [List.filterMap_cons_none hga]; exact ih.cons a
    | some u =>
      rw [List.filterMap_cons_some hga, List.map_cons, hg a u hga]
      exact ih.cons₂ a

theorem updates_keys_nodup [DecidableEq V] {base : List (String × V)}
    (patched : List (String × V)) (hb : KeysNodup base) :
    ((generateDelta base patched).updates.map Update.key).Nodup := by
  unfold generateDelta
  apply List.Nodup.sublist _ hb
  apply filterMap_key_sublist
  intro k u hg
  cases hbl : lookup base k with
  | none => rw [hbl] at hg; simp at hg
  | some v =>
    cases hpl : lookup patched k with
    | none => rw [hbl, hpl] at hg; simp at hg
    | some w =>
      rw [hbl, hpl] at hg
      dsimp only at hg
      by_cases hvw : v = w
      · rw [if_neg (by simpa using hvw)] at hg; simp at hg
      · rw [if_pos (by simpa using hvw)] at hg
        rw [← Option.some.inj hg]

theorem generateDelta_self [DecidableEq V] (m : List (String × V)) :
    generateDelta m m = ⟨[], [], []⟩ := by
  unfold generateDelta
  have h1 : m.filter (fun p => !(hasKey m p.1)) = [] := by
    apply List.filter_eq_nil_iff.mpr
    intro p hp
    have h : hasKey m p.1 = true := isSome_lookup_of_mem (show (p.1, p.2) ∈ m from hp)
    simp [h]
  have h2 : (m.map Prod.fst).filter (fun k => !(hasKey m k)) = [] := by
    apply List.filter_eq_nil_iff.mpr
    intro k hk
    have h : hasKey m k = true := (lookup_isSome_iff m k).mpr hk
    simp [h]
  have h3 : (m.map Prod.fst).filterMap (fun k =>
      match lookup m k, lookup m k with
      | some v, some w => if v ≠ w then some (⟨k, v, w⟩ : Update V) else none
      | _, _ => none) = [] := by
    apply List.filterMap_eq_nil_iff.mpr
    intro k _
    cases hl : lookup m k with
    | none => simp
    | some v => simp
  rw [h1, h2, h3]

theorem roundtrip {base patched : List (String × V)} [DecidableEq V]
    (hb : KeysNodup base) (hp : KeysNodup patched) :
    dictEq (applyDelta base (generateDelta base patched)) patched := by
  intro k
  unfold applyDelta
  cases hpk : lookup patched k with
  | none =>
    have hnoadd : ∀ a ∈ (generateDelta base patched).additions, a.1 ≠ k := by
      rintro ⟨ak, av⟩ ha he
      have hmem := ((mem_additions_iff base patched ak av).mp ha).1
      have hak : ak = k := he
      have hs : (lookup patched ak).isSome = true := isSome_lookup_of_mem hmem
      rw [hak, hpk] at hs
      simp at hs
    rw [lookup_applyAdditions_of_not_mem hnoadd]
    have hnoupd : ∀ u ∈ (generateDelta base patched).updates, u.key ≠ k := by
      intro u hu he
      have h2 := ((mem_updates_iff base patched u).mp hu).2.1
      rw [he, hpk] at h2
      exact Option.noConfusion h2
    rw [lookup_applyUpdates_of_not_mem hnoupd, lookup_applyDeletions]
    by_cases hbk : k ∈ base.map Prod.fst
    · rw [if_pos ((mem_deletions_iff base patched k).mpr ⟨hbk, hpk⟩)]
    · rw [if_neg (fun hd => hbk ((mem_deletions_iff base patched k).mp hd).1)]
      exact (lookup_eq_none_iff base k).mpr hbk
  | some w =>
    have hkp : (k, w) ∈ patched := mem_of_lookup_eq_some hpk
    have hknotdel : k ∉ (generateDelta base patched).deletions := by
      intro hd
      have h2 := ((mem_deletions_iff base patched k).mp hd).2
      rw [hpk] at h2
      exact Option.noConfusion h2
    cases hbk : lookup base k with
    | none =>
      have hadd : (k, w) ∈ (generateDelta base patched).additions :=
        (mem_additions_iff base patched k w).mpr ⟨hkp, hbk⟩
      exact lookup_applyAdditions_unique (additions_keys_nodup base hp) hadd _
    | some v =>
      have hnoadd : ∀ a ∈ (generateDelta base patched).additions, a.1 ≠ k := by
        rintro ⟨ak, av⟩ ha he
        have hak : ak = k := he
        have h2 := ((mem_additions_iff base patched ak av).mp ha).2
        rw [hak, hbk] at h2
        exact Option.noConfusion h2
      rw [lookup_applyAdditions_of_not_mem hnoadd]
      by_cases hvw : v = w
      · have hnoupd : ∀ u ∈ (generateDelta base patched).updates, u.key ≠ k := by
          intro u hu he
          obtain ⟨h1, h2, h3⟩ := (mem_updates_iff base patched u).mp hu
          rw [he, hbk] at h1
          rw [he, hpk] at h2
          exact h3 (by rw [← Option.some.inj h1, ← Option.some.inj h2, hvw])
        rw [lookup_applyUpdates_of_not_mem hnoupd, lookup_applyDeletions,
          if_neg hknotdel, hbk, hvw]
      · have hu : (⟨k, v, w⟩ : Update V) ∈ (generateDelta base patched).updates :=
          (mem_updates_iff base patched ⟨k, v, w⟩).mpr ⟨hbk, hpk, hvw⟩
        rw [lookup_applyUpdates_unique (updates_keys_nodup patched hb) hu rfl,
          lookup_applyDeletions, if_neg hknotdel, hbk]
        rfl

/-! ### Mutation model for `ConfigDeltaProcessor.apply` (frame property)

Python's `apply` receives a reference to the caller's dict, executes
`result = config_json.copy()` and then mutates only through `result`.
To state the frame property we model the heap explicitly: a list of
dict-valued cells addressed by index; `.copy()` allocates a fresh cell;
every statement of the three loops writes to the `result` cell. -/

/-- The heap: one cell per live dict object. -/
structure DictHeap (V : Type) where
  cells : List (List (String × V))

/-- Dereference a cell (out-of-range reads a dummy empty dict). -/
def readCell (h : DictHeap V) (i : Nat) : List (String × V) :=
  h.cells.getD i []

/-- Overwrite the dict object stored in cell `i`. -/
def writeCell (h : DictHeap V) (i : Nat) (d : List (String × V)) : DictHeap V :=
  ⟨h.cells.set i d⟩

/-- `d.copy()` / fresh allocation: append a new cell, return its address. -/
def allocCell (h : DictHeap V) (d : List (String × V)) : DictHeap V × Nat :=
  (⟨h.cells ++ [d]⟩, h.cells.length)

/-- The deletion loop of `apply` as heap statements: each iteration
reads the `result` cell, deletes if present, writes it back. -/
def runDeletions (r : Nat) (dels : List String) (h : DictHeap V) : DictHeap V :=
  dels.foldl (fun hh k => writeCell hh r (delIfPresent (readCell hh r) k)) h

/-- The update loop of `apply` as heap statements. -/
def runUpdates (r : Nat) (upds : List (Update V)) (h : DictHeap V) : DictHeap V :=
  upds.foldl (fun hh u => writeCell hh r (updIfPresent (readCell hh r) u)) h

/-- The addition loop of `apply` as heap statements. -/
def runAdditions (r : Nat) (adds : List (String × V)) (h : DictHeap V) : DictHeap V :=
  adds.foldl (fun hh a => writeCell hh r (addStep (readCell hh r) a)) h

/-- `ConfigDeltaProcessor.apply` as a heap program: `result =
config_json.copy()` allocates, then the deletion, update and addition
loops each read-modify-write the `result` cell only. Returns the final
heap and the address of the result dict. -/
def applyRun (h : DictHeap V) (baseAddr : Nat) (delta : Delta V) : DictHeap V × Nat :=
  let (h1, r) := allocCell h (readCell h baseAddr)
  (runAdditions r delta.additions
    (runUpdates r delta.updates
      (runDeletions r delta.deletions h1)), r)

theorem readCell_writeCell_same (h : DictHeap V) (i : Nat) (d : List (String × V))
    (hi : i < h.cells.length) : readCell (writeCell h i d) i = d := by
  unfold readCell writeCell
  simp [List.getD, List.getElem?_set_self, hi]

theorem readCell_writeCell_ne (h : DictHeap V) (i j : Nat) (d : List (String × V))
    (hij : i ≠ j) : readCell (writeCell h i d) j = readCell h j := by
  unfold readCell writeCell
  simp [List.getD, List.getElem?_set_ne hij]

theorem writeCell_length (h : DictHeap V) (i : Nat) (d : List (String × V)) :
    (writeCell h i d).cells.length = h.cells.length := by
  unfold writeCell
  simp

/-- A single read-modify-write loop at a fixed valid address `r` behaves
like the corresponding pure fold on the cell's contents and leaves every
other cell untouched. -/
theorem foldl_writeCell_spec {α : Type} (f : List (String × V) → α → List (String × V))
    (l : List α) (h : DictHeap V) (r : Nat) (hr : r < h.cells.length) :
    (l.foldl (fun hh x => writeCell hh r (f (readCell hh r) x)) h).cells.length
        = h.cells.length ∧
      readCell (l.foldl (fun hh x => writeCell hh r (f (readCell hh r) x)) h) r
        = l.foldl f (readCell h r) ∧
      ∀ j, j ≠ r →
        readCell (l.foldl (fun hh x => writeCell hh r (f (readCell hh r) x)) h) j
          = readCell h j := by
  induction l generalizing h with
  | nil => exact ⟨rfl, rfl, fun j _ => rfl⟩
  | cons x rest ih =>
    simp only [List.foldl_cons]
    set h' := writeCell h r (f (readCell h r) x) with hh'
    have hr' : r < h'.cells.length := by rw [hh', writeCell_length]; exact hr
    obtain ⟨ihl, ihr, ihj⟩ := ih h' hr'
    refine ⟨?_, ?_, ?_⟩
    · rw [ihl, hh', writeCell_length]
    · rw [ihr, hh', readCell_writeCell_same h r _ hr]
    · intro j hj
      rw [ihj j hj, hh', readCell_writeCell_ne h r j _ (fun he => hj he.symm)]

/-! ### XMLProcessor (src/main.py, lines 6-121)

The ElementTree layer is out of scope (its failures are
`MalformedInputError`); the embedding starts from the parsed document: the
list of `Class` elements (each with its `Attribute` children) and the list
of `Aggregation` elements, in document order — exactly what
`root.findall('Class')` / `root.findall('Aggregation')` deliver. -/

/-- One `Attribute` element: `{'name': a.get('name'), 'type': a.get('type')}`. -/
structure AttrRec where
  name : String
  type : String
  deriving DecidableEq, Repr

/-- One `Class` element with its attribute children. -/
structure ClassRec where
  name : String
  isRoot : Bool
  documentation : String
  attributes : List AttrRec
  deriving DecidableEq, Repr

/-- One `Aggregation` element. -/
structure AggRec where
  source : String
  target : String
  sourceMultiplicity : String
  deriving DecidableEq, Repr

/-- The parsed XML document (outputs of the two `findall` calls). -/
structure XMLDoc where
  classes : List ClassRec
  aggregations : List AggRec
  deriving DecidableEq, Repr

/-- The per-class record stored in `self.classes`: `isRoot`,
`documentation`, `attributes`, and the `children` list of
`{'name': source, 'multiplicity': sourceMultiplicity}` pairs. -/
structure ClassInfo where
  isRoot : Bool
  documentation : String
  attributes : List AttrRec
  children : List (String × String)
  deriving DecidableEq, Repr

/-- The first loop of `_parse_xml_classes`: one dict entry per `Class`
element, `children` initially empty. -/
def classesBase (doc : XMLDoc) : List (String × ClassInfo) :=
  doc.classes.foldl
    (fun m c => setKey m c.name ⟨c.isRoot, c.documentation, c.attributes, []⟩) []

/-- One iteration of the aggregation loop: append
`{'name': source, 'multiplicity': sourceMultiplicity}` to the target's
`children` when `target in classes`, silently do nothing otherwise. -/
def addAgg (m : List (String × ClassInfo)) (a : AggRec) : List (String × ClassInfo) :=
  if hasKey m a.target then
    m.map (fun p =>
      if p.1 = a.target then
        (p.1, { p.2 with children := p.2.children ++ [(a.source, a.sourceMultiplicity)] })
      else p)
  else m

/-- `XMLProcessor._parse_xml_classes`. -/
def parseClasses (doc : XMLDoc) : List (String × ClassInfo) :=
  doc.aggregations.foldl addAgg (classesBase doc)

/-- An `xml.etree.ElementTree.Element` as built by `build_xml_structure`:
tag, optional text, list of sub-elements. -/
inductive XmlNode where
  | elem (tag : String) (text : Option String) (children : List XmlNode)
  deriving Repr

/-- Runtime failures of `XMLProcessor`: the `ValueError` raised when no
root class is found, the `KeyError` from `self.classes[current_class]`,
Python's `RecursionError` on unbounded recursion, and the `ValueError`
raised by unpacking a multiplicity split into two variables. -/
inductive Err where
  | noRoot
  | missing (name : String)
  | depth
  | badMult
  deriving DecidableEq, Repr

/-- Leaf node for an attribute: named after the attribute, its text the
attribute's type string. -/
def attrLeaf (a : AttrRec) : XmlNode :=
  .elem a.name (some a.type) []

/-- The loop `for child in class_info['children']: element.append(...)`,
propagating the first raised exception. -/
def buildList (f : String → Except Err XmlNode) : List String → Except Err (List XmlNode)
  | [] => .ok []
  | n :: rest =>
    match f n with
    | .error e => .error e
    | .ok t =>
      match buildList f rest with
      | .error e => .error e
      | .ok ts => .ok (t :: ts)

/-- `XMLProcessor.build_xml_structure`, with explicit recursion fuel: the
Python code has no cycle guard, so on cyclic models it recurses until the
interpreter kills it — modelled by the `.depth` error when the fuel runs
out. A node holds the attribute leaves first, then the recursively built
child subtrees. -/
def buildX (classes : List (String × ClassInfo)) : Nat → String → Except Err XmlNode
  | 0 => fun _ => .error .depth
  | fuel + 1 => fun name =>
    match lookup classes name with
    | none => .error (.missing name)
    | some info =>
      match buildList (buildX classes fuel) (info.children.map Prod.fst) with
      | .error e => .error e
      | .ok kids => .ok (.elem name none (info.attributes.map attrLeaf ++ kids))

/-- The root search loop of `generate_config_xml`: first class whose
`isRoot` flag is set. -/
def findRoot (classes : List (String × ClassInfo)) : Option String :=
  (classes.find? (fun p => p.2.isRoot)).map Prod.fst

/-- `XMLProcessor.generate_config_xml` up to serialization (indentation
and stringification preserve the tree, so the tree is the output
modelled). Note the Python guard `if not root_class` is falsy both for
`None` and for the empty string, hence the extra test. -/
def generate_config_xml (doc : XMLDoc) (fuel : Nat) : Except Err XmlNode :=
  match findRoot (parseClasses doc) with
  | none => .error .noRoot
  | some r => if r = "" then .error .noRoot else buildX (parseClasses doc) fuel r

/-- Python's `s.split('..')` on the character list: cut at each leftmost,
non-overlapping occurrence of two consecutive dots. One group when the
separator does not occur, one extra group per separator occurrence. -/
def splitDots : List Char → List (List Char)
  | [] => [[]]
  | '.' :: '.' :: rest => [] :: splitDots rest
  | c :: rest =>
    match splitDots rest with
    | [] => [[c]]
    | g :: gs => (c :: g) :: gs

/-- The multiplicity split in `generate_meta_json`:
`if '..' in s: min_s, max_s = s.split('..') else: min_s = max_s = s`.
A single group means `'..' not in s`; exactly two groups unpack into
`(min, max)`; three or more make the two-variable unpacking raise
`ValueError`. -/
def parseMult (s : String) : Except Err (String × String) :=
  match (splitDots s.data).map String.mk with
  | [_] => .ok (s, s)
  | [a, b] => .ok (a, b)
  | _ => .error .badMult

/-- The body of the `class_multiplicity` loop of `generate_meta_json`:
process aggregations in order, keyed by `source` (a later aggregation
with the same source overwrites the earlier one), propagating the first
`ValueError` from a malformed multiplicity. -/
def multFold (acc : List (String × (String × String))) :
    List AggRec → Except Err (List (String × (String × String)))
  | [] => .ok acc
  | a :: rest =>
    match parseMult a.sourceMultiplicity with
    | .error e => .error e
    | .ok mm => multFold (setKey acc a.source mm) rest

/-- The `class_multiplicity` dict of `generate_meta_json`. -/
def buildMultMap (aggs : List AggRec) : Except Err (List (String × (String × String))) :=
  multFold [] aggs

/-- One entry of the metadata list. The Python dict carries the keys
`class` (here `className`: `class` is reserved), `documentation`,
`isRoot`, conditionally `max`/`min` (here the two `Option` fields, `none`
when the keys are omitted), and `parameters`. -/
structure MetaEntry where
  className : String
  documentation : String
  isRoot : Bool
  min? : Option String
  max? : Option String
  parameters : List AttrRec
  deriving DecidableEq, Repr

/-- The entry built for one `self.classes` item: `min`/`max` only when
the class is a known multiplicity source and is not a root; parameters
are the attributes followed by the children typed as `"class"`. -/
def mkMetaEntry (mult : List (String × (String × String))) (name : String)
    (info : ClassInfo) : MetaEntry :=
  let mm : Option (String × String) :=
    if hasKey mult name && !info.isRoot then lookup mult name else none
  { className := name
    documentation := info.documentation
    isRoot := info.isRoot
    min? := mm.map Prod.fst
    max? := mm.map Prod.snd
    parameters := info.attributes ++ info.children.map (fun c => ⟨c.1, "class"⟩) }

/-- `XMLProcessor.generate_meta_json`: build `class_multiplicity` from the
aggregations (raising on malformed multiplicities), then one entry per
class in dict order. There is no root check anywhere in this method. -/
def generate_meta_json (doc : XMLDoc) : Except Err (List MetaEntry) :=
  match buildMultMap doc.aggregations with
  | .error e => .error e
  | .ok mult => .ok ((parseClasses doc).map (fun p => mkMetaEntry mult p.1 p.2))

/-! ### Lemmas about the parser -/

/-- The source/multiplicity pairs of the aggregations whose `target` is
`k`, in document order — the final `children` list of class `k`. -/
def childPairs (aggs : List AggRec) (k : String) : List (String × String) :=
  (aggs.filter (fun a => a.target = k)).map (fun a => (a.source, a.sourceMultiplicity))

theorem lookup_map_update (m : List (String × V)) (t : String) (g : V → V) (k : String) :
    lookup (m.map (fun p => if p.1 = t then (p.1, g p.2) else p)) k
      = (lookup m k).map (fun v => if t = k then g v else v) := by
  induction m with
  | nil => rfl
  | cons p rest ih =>
    simp only [List.map_cons]
    by_cases hpt : p.1 = t
    · rw [if_pos hpt]
      simp only [lookup]
      by_cases hpk : p.1 = k
      · rw [if_pos hpk, if_pos hpk, Option.map_some', if_pos (hpt.symm.trans hpk)]
      · rw [if_neg hpk, if_neg hpk, ih]
    · rw [if_neg hpt]
      simp only [lookup]
      by_cases hpk : p.1 = k
      · rw [if_pos hpk, if_pos hpk, Option.map_some',
          if_neg (fun htk : t = k => hpt (hpk.trans htk.symm))]
      · rw [if_neg hpk, if_neg hpk, ih]

theorem lookup_addAgg (m : List (String × ClassInfo)) (a : AggRec) (k : String) :
    lookup (addAgg m a) k = (lookup m k).map (fun i =>
      if a.target = k then
        { i with children := i.children ++ [(a.source, a.sourceMultiplicity)] }
      else i) := by
  unfold addAgg
  by_cases h : hasKey m a.target
  · rw [if_pos h]
    exact lookup_map_update m a.target
      (fun i => { i with children := i.children ++ [(a.source, a.sourceMultiplicity)] }) k
  · rw [if_neg h]
    by_cases ht : a.target = k
    · have hnone : lookup m k = none := by
        cases hl : lookup m k with
        | none => rfl
        | some i =>
          unfold hasKey at h
          rw [ht, hl] at h
          simp at h
      rw [hnone]
      rfl
    · cases hl : lookup m k with
      | none => rfl
      | some i => rw [Option.map_some', if_neg ht]

theorem lookup_foldl_addAgg (aggs : List AggRec) (m : List (String × ClassInfo))
    (k : String) :
    lookup (aggs.foldl addAgg m) k = (lookup m k).map (fun i =>
      { i with children := i.children ++ childPairs aggs k }) := by
  unfold childPairs
  induction aggs generalizing m with
  | nil =>
    simp only [List.foldl_nil]
    cases hl : lookup m k with
    | none => rfl
    | some i => simp
  | cons a rest ih =>
    simp only [List.foldl_cons]
    rw [ih, lookup_addAgg]
    cases hl : lookup m k with
    | none => rfl
    | some i =>
      simp only [Option.map_some']
      by_cases ht : a.target = k
      · rw [if_pos ht, List.filter_cons_of_pos (by simp [ht])]
        simp
      · rw [if_neg ht, List.filter_cons_of_neg (by simp [ht])]

theorem addAgg_not_hasKey {m : List (String × ClassInfo)} {a : AggRec}
    (h : hasKey m a.target = false) : addAgg m a = m := by
  unfold addAgg
  rw [if_neg (by simp [h])]

theorem mem_setKey {m : List (String × V)} {k : String} {v : V} {p : String × V}
    (h : p ∈ setKey m k v) : p ∈ m ∨ p.2 = v := by
  unfold setKey at h
  by_cases hk : hasKey m k
  · rw [if_pos hk] at h
    rcases List.mem_map.mp h with ⟨q, hq, hfq⟩
    by_cases hqk : q.1 = k
    · rw [if_pos hqk] at hfq
      right
      rw [← hfq]
    · rw [if_neg hqk] at hfq
      left
      rw [← hfq]
      exact hq
  · rw [if_neg hk] at h
    rcases List.mem_append.mp h with h | h
    · left; exact h
    · right
      rcases List.mem_singleton.mp h with rfl
      rfl

theorem mem_foldl_setKey {α : Type} (f : α → String) (g : α → V) (Q : V → Prop)
    (cs : List α) (acc : List (String × V)) (hacc : ∀ p ∈ acc, Q p.2)
    (hcs : ∀ c ∈ cs, Q (g c)) :
    ∀ p ∈ cs.foldl (fun m c => setKey m (f c) (g c)) acc, Q p.2 := by
  induction cs generalizing acc with
  | nil => exact hacc
  | cons c rest ih =>
    simp only [List.foldl_cons]
    apply ih
    · intro p hp
      rcases mem_setKey hp with hmem | hval
      · exact hacc p hmem
      · rw [hval]
        exact hcs c (List.mem_cons_self c rest)
    · intro c' hc'
      exact hcs c' (List.mem_cons_of_mem _ hc')

theorem mem_classesBase_value {doc : XMLDoc} (Q : ClassInfo → Prop)
    (hcs : ∀ c ∈ doc.classes, Q ⟨c.isRoot, c.documentation, c.attributes, []⟩) :
    ∀ p ∈ classesBase doc, Q p.2 := by
  unfold classesBase
  exact mem_foldl_setKey _ _ Q doc.classes [] (by intro p hp; simp at hp) hcs

theorem mem_addAgg_isRoot {m : List (String × ClassInfo)} {a : AggRec}
    {p : String × ClassInfo} (h : p ∈ addAgg m a) :
    ∃ q ∈ m, p.2.isRoot = q.2.isRoot := by
  unfold addAgg at h
  by_cases hk : hasKey m a.target
  · rw [if_pos hk] at h
    rcases List.mem_map.mp h with ⟨q, hq, hfq⟩
    refine ⟨q, hq, ?_⟩
    by_cases hqt : q.1 = a.target
    · rw [if_pos hqt] at hfq
      rw [← hfq]
    · rw [if_neg hqt] at hfq
      rw [← hfq]
  · rw [if_neg hk] at h
    exact ⟨p, h, rfl⟩

theorem mem_foldl_addAgg_isRoot {aggs : List AggRec} {m : List (String × ClassInfo)}
    {p : String × ClassInfo} (h : p ∈ aggs.foldl addAgg m) :
    ∃ q ∈ m, p.2.isRoot = q.2.isRoot := by
  induction aggs generalizing m with
  | nil => exact ⟨p, h, rfl⟩
  | cons a rest ih =>
    simp only [List.foldl_cons] at h
    rcases ih h with ⟨q, hq, hqe⟩
    rcases mem_addAgg_isRoot hq with ⟨q', hq', hq'e⟩
    exact ⟨q', hq', hqe.trans hq'e⟩

theorem parseClasses_isRoot_false {doc : XMLDoc}
    (h : ∀ c ∈ doc.classes, c.isRoot = false) :
    ∀ p ∈ parseClasses doc, p.2.isRoot = false := by
  intro p hp
  unfold parseClasses at hp
  rcases mem_foldl_addAgg_isRoot hp with ⟨q, hq, hqe⟩
  rw [hqe]
  exact mem_classesBase_value (fun i => i.isRoot = false) (fun c hc => h c hc) q hq

theorem findRoot_eq_none {classes : List (String × ClassInfo)}
    (h : ∀ p ∈ classes, p.2.isRoot = false) : findRoot classes = none := by
  unfold findRoot
  rw [List.find?_eq_none.mpr (fun p hp => by simp [h p hp])]
  rfl

/-- The `children` of every known class are exactly the source/multiplicity
pairs of the aggregations targeting it, in document order. -/
theorem lookup_parseClasses (doc : XMLDoc) (k : String) :
    lookup (parseClasses doc) k = (lookup (classesBase doc) k).map (fun i =>
      { i with children := childPairs doc.aggregations k }) := by
  unfold parseClasses
  rw [lookup_foldl_addAgg]
  cases hl : lookup (classesBase doc) k with
  | none => rfl
  | some i =>
    simp only [Option.map_some']
    have : i.children = [] := by
      have hmem := mem_of_lookup_eq_some hl
      exact mem_classesBase_value (fun j => j.children = []) (fun c _ => rfl) _ hmem
    rw [this]
    simp

theorem keys_setValue (m : List (String × V)) (k : String) (v : V) :
    (setValue m k v).map Prod.fst = m.map Prod.fst := by
  unfold setValue
  rw [List.map_map]
  apply List.map_congr_left
  intro p _
  by_cases hpk : p.1 = k
  · simp [Function.comp, hpk]
  · simp [Function.comp, hpk]

theorem keysNodup_setKey {m : List (String × V)} (k : String) (v : V)
    (hm : KeysNodup m) : KeysNodup (setKey m k v) := by
  unfold setKey
  by_cases h : hasKey m k
  · rw [if_pos h]
    unfold KeysNodup
    rw [keys_setValue]
    exact hm
  · rw [if_neg h]
    unfold KeysNodup
    rw [List.map_append]
    apply List.nodup_append.mpr
    refine ⟨hm, by simp, ?_⟩
    intro x hx hx1
    simp only [List.map_cons, List.map_nil, List.mem_singleton] at hx1
    rw [hx1] at hx
    have : (lookup m k).isSome = true := (lookup_isSome_iff m k).mpr hx
    unfold hasKey at h
    exact h this

theorem keysNodup_foldl_setKey {α : Type} (f : α → String) (g : α → V) (cs : List α)
    (acc : List (String × V)) (hacc : KeysNodup acc) :
    KeysNodup (cs.foldl (fun m c => setKey m (f c) (g c)) acc) := by
  induction cs generalizing acc with
  | nil => exact hacc
  | cons c rest ih =>
    simp only [List.foldl_cons]
    exact ih _ (keysNodup_setKey _ _ hacc)

theorem keysNodup_classesBase (doc : XMLDoc) : KeysNodup (classesBase doc) := by
  unfold classesBase
  exact keysNodup_foldl_setKey _ _ doc.classes [] (by simp [KeysNodup])

theorem keys_addAgg (m : List (String × ClassInfo)) (a : AggRec) :
    (addAgg m a).map Prod.fst = m.map Prod.fst := by
  unfold addAgg
  by_cases h : hasKey m a.target
  · rw [if_pos h, List.map_map]
    apply List.map_congr_left
    intro p _
    by_cases hpt : p.1 = a.target
    · simp [Function.comp, hpt]
    · simp [Function.comp, hpt]
  · rw [if_neg h]

theorem keys_foldl_addAgg (aggs : List AggRec) (m : List (String × ClassInfo)) :
    (aggs.foldl addAgg m).map Prod.fst = m.map Prod.fst := by
  induction aggs generalizing m with
  | nil => rfl
  | cons a rest ih =>
    simp only [List.foldl_cons]
    rw [ih, keys_addAgg]

theorem keysNodup_parseClasses (doc : XMLDoc) : KeysNodup (parseClasses doc) := by
  unfold KeysNodup parseClasses
  rw [keys_foldl_addAgg]
  exact keysNodup_classesBase doc

theorem hasKey_parseClasses (doc : XMLDoc) (k : String) :
    hasKey (parseClasses doc) k = hasKey (classesBase doc) k := by
  unfold hasKey
  rw [lookup_parseClasses]
  cases lookup (classesBase doc) k <;> rfl

/-! ### Lemmas about the multiplicity map -/

theorem multFold_ok_of_all {aggs : List AggRec}
    (h : ∀ a ∈ aggs, (parseMult a.sourceMultiplicity).isOk = true)
    (acc : List (String × (String × String))) :
    ∃ mm, multFold acc aggs = .ok mm := by
  induction aggs generalizing acc with
  | nil => exact ⟨acc, rfl⟩
  | cons a rest ih =>
    unfold multFold
    cases hpm : parseMult a.sourceMultiplicity with
    | error e =>
      have := h a (List.mem_cons_self a rest)
      rw [hpm] at this
      simp [Except.isOk, Except.toBool] at this
    | ok mm => exact ih (fun a' ha' => h a' (List.mem_cons_of_mem _ ha')) _

theorem multFold_all_ok {aggs : List AggRec} {acc mm : List (String × (String × String))}
    (h : multFold acc aggs = .ok mm) :
    ∀ a ∈ aggs, (parseMult a.sourceMultiplicity).isOk = true := by
  induction aggs generalizing acc with
  | nil => intro a ha; simp at ha
  | cons a rest ih =>
    unfold multFold at h
    cases hpm : parseMult a.sourceMultiplicity with
    | error e => rw [hpm] at h; exact absurd h (by simp)
    | ok mmv =>
      rw [hpm] at h
      intro a' ha'
      rcases List.mem_cons.mp ha' with rfl | hmem
      · rw [hpm]; rfl
      · exact ih h a' hmem

theorem lookup_multFold {aggs : List AggRec} {acc mm : List (String × (String × String))}
    (h : multFold acc aggs = .ok mm) (s : String) :
    lookup mm s = ((aggs.filter (fun a => a.source = s)).getLast?).elim (lookup acc s)
      (fun a => (parseMult a.sourceMultiplicity).toOption) := by
  induction aggs generalizing acc with
  | nil =>
    have : acc = mm := Except.ok.inj h
    rw [← this]
    rfl
  | cons a rest ih =>
    unfold multFold at h
    cases hpm : parseMult a.sourceMultiplicity with
    | error e => rw [hpm] at h; exact absurd h (by simp)
    | ok mmv =>
      rw [hpm] at h
      by_cases hpa : a.source = s
      · rw [List.filter_cons_of_pos (by simp [hpa])]
        cases hg : (rest.filter (fun a => a.source = s)).getLast? with
        | none =>
          have hrf : rest.filter (fun a => a.source = s) = [] := by
            cases hc : rest.filter (fun a => a.source = s) with
            | nil => rfl
            | cons b bs =>
              rw [hc] at hg
              rcases List.getLast?_eq_none_iff.mp hg with h'
              exact absurd h' (by simp)
          rw [hrf]
          have := ih h
          rw [hg] at this
          rw [this, lookup_setKey, if_pos hpa.symm]
          simp only [List.getLast?_singleton, Option.elim_some, hpm]
          rfl
        | some la =>
          have hne : rest.filter (fun a => a.source = s) ≠ [] := by
            intro hc
            rw [hc] at hg
            simp at hg
          cases hc : rest.filter (fun a => a.source = s) with
          | nil => exact absurd hc hne
          | cons b bs =>
            rw [List.getLast?_cons_cons, ← hc, hg]
            have := ih h
            rw [hg] at this
            rw [this]
            rfl
      · rw [List.filter_cons_of_neg (by simp [hpa])]
        have := ih h
        rw [this, lookup_setKey, if_neg (fun he => hpa he.symm)]

/-! ### Lemmas about the tree builder -/

theorem multFold_target_free (aggs : List AggRec) (f : AggRec → String)
    (acc : List (String × (String × String))) :
    multFold acc (aggs.map (fun a => { a with target := f a })) = multFold acc aggs := by
  induction aggs generalizing acc with
  | nil => rfl
  | cons a rest ih =>
    simp only [List.map_cons]
    unfold multFold
    cases hpm : parseMult a.sourceMultiplicity with
    | error e => rfl
    | ok mm => exact ih _

/-- `class_multiplicity` never reads the `target` attribute: rewriting
every aggregation's target arbitrarily leaves the map unchanged. -/
theorem buildMultMap_target_free (aggs : List AggRec) (f : AggRec → String) :
    buildMultMap (aggs.map (fun a => { a with target := f a })) = buildMultMap aggs :=
  multFold_target_free aggs f []

theorem buildList_ok_mem {f : String → Except Err XmlNode} {l : List String}
    {ts : List XmlNode} (h : buildList f l = .ok ts) {n : String} (hn : n ∈ l) :
    ∃ t, f n = .ok t := by
  induction l generalizing ts with
  | nil => simp at hn
  | cons m rest ih =>
    unfold buildList at h
    cases hf : f m with
    | error e => rw [hf] at h; exact absurd h (by simp)
    | ok t =>
      rw [hf] at h
      cases hb : buildList f rest with
      | error e => rw [hb] at h; exact absurd h (by simp)
      | ok ts' =>
        rcases List.mem_cons.mp hn with rfl | hmem
        · exact ⟨t, hf⟩
        · exact ih hb hmem

theorem buildX_zero (classes : List (String × ClassInfo)) (name : String) :
    buildX classes 0 name = .error .depth := rfl

theorem buildX_succ (classes : List (String × ClassInfo)) (fuel : Nat) (name : String) :
    buildX classes (fuel + 1) name =
      match lookup classes name with
      | none => .error (.missing name)
      | some info =>
        match buildList (buildX classes fuel) (info.children.map Prod.fst) with
        | .error e => .error e
        | .ok kids => .ok (.elem name none (info.attributes.map attrLeaf ++ kids)) := rfl

theorem buildX_ok_lookup {classes : List (String × ClassInfo)} {fuel : Nat}
    {name : String} {t : XmlNode} (h : buildX classes fuel name = .ok t) :
    (lookup classes name).isSome = true := by
  cases fuel with
  | zero => rw [buildX_zero] at h; exact absurd h (by simp)
  | succ fuel =>
    rw [buildX_succ] at h
    cases hl : lookup classes name with
    | none => rw [hl] at h; exact absurd h (by simp)
    | some info => rfl

theorem buildX_succ_ok {classes : List (String × ClassInfo)} {fuel : Nat}
    {name : String} {t : XmlNode} (h : buildX classes (fuel + 1) name = .ok t) :
    ∃ info kids, lookup classes name = some info ∧
      buildList (buildX classes fuel) (info.children.map Prod.fst) = .ok kids ∧
      t = .elem name none (info.attributes.map attrLeaf ++ kids) := by
  rw [buildX_succ] at h
  cases hl : lookup classes name with
  | none => rw [hl] at h; exact absurd h (by simp)
  | some info =>
    rw [hl] at h
    dsimp only at h
    cases hb : buildList (buildX classes fuel) (info.children.map Prod.fst) with
    | error e => rw [hb] at h; exact absurd h (by simp)
    | ok kids =>
      rw [hb] at h
      exact ⟨info, kids, rfl, hb, (Except.ok.inj h).symm⟩

/-- Reachability along `children` references in the parsed class dict:
the names `build_xml_structure` visits when started at the first one. -/
inductive Reach (classes : List (String × ClassInfo)) : String → String → Prop where
  | refl (c : String) : Reach classes c c
  | step {a b c : String} {info : ClassInfo} {mu : String} :
      Reach classes a b → lookup classes b = some info → (c, mu) ∈ info.children →
      Reach classes a c

theorem reach_buildX_ok {classes : List (String × ClassInfo)} {a d : String}
    (hr : Reach classes a d) :
    ∀ fuel t, buildX classes fuel a = .ok t → ∃ fuel' t', buildX classes fuel' d = .ok t' := by
  induction hr with
  | refl => exact fun fuel t h => ⟨fuel, t, h⟩
  | @step b c info mu _ hl hmem ih =>
    intro fuel t h
    rcases ih fuel t h with ⟨fuel', t', h'⟩
    cases fuel' with
    | zero => rw [buildX_zero] at h'; exact absurd h' (by simp)
    | succ f =>
      rcases buildX_succ_ok h' with ⟨info', kids, hl', hb, _⟩
      have hii : info' = info := by
        rw [hl] at hl'
        exact (Option.some.inj hl').symm
      have hcm : c ∈ info'.children.map Prod.fst := by
        rw [hii]
        exact List.mem_map_of_mem Prod.fst hmem
      rcases buildList_ok_mem hb hcm with ⟨t2, h2⟩
      exact ⟨f, t2, h2⟩

/-- `u.key = k` for any update record produced by the third loop of
`generate` at key `k`. -/
theorem generate_update_fun_key [DecidableEq V] (base patched : List (String × V)) :
    ∀ k (u : Update V),
      (match lookup base k, lookup patched k with
        | some v, some w => if v ≠ w then some (⟨k, v, w⟩ : Update V) else none
        | _, _ => none) = some u → u.key = k := by
  intro k u hg
  cases hbl : lookup base k with
  | none => rw [hbl] at hg; simp at hg
  | some v =>
    cases hpl : lookup patched k with
    | none => rw [hbl, hpl] at hg; simp at hg
    | some w =>
      rw [hbl, hpl] at hg
      dsimp only at hg
      by_cases hvw : v = w
      · rw [if_neg (by simpa using hvw)] at hg; simp at hg
      · rw [if_pos (by simpa using hvw)] at hg
        rw [← Option.some.inj hg]

theorem updates_key_sublist [DecidableEq V] (base patched : List (String × V)) :
    ((generateDelta base patched).updates.map Update.key).Sublist (base.map Prod.fst) := by
  unfold generateDelta
  exact filterMap_key_sublist (generate_update_fun_key base patched) _

/-! ### Concrete documents used as witnesses and counterexamples -/

/-- A model with zero root classes (and one aggregation). -/
def docNoRoot : XMLDoc :=
  { classes := [⟨"A", false, "doc", [⟨"x", "int"⟩]⟩],
    aggregations := [⟨"A", "B", "1..3"⟩] }

/-- The concrete scenario of §8: root `R` without attributes, one
aggregation `source=C, target=R, sourceMultiplicity="0..5"`, `C` with
attribute `x : int`. -/
def docC5 : XMLDoc :=
  { classes := [⟨"R", true, "", []⟩, ⟨"C", false, "", [⟨"x", "int"⟩]⟩],
    aggregations := [⟨"C", "R", "0..5"⟩] }

/-- The tree the scenario renders to. -/
def treeC5 : XmlNode :=
  .elem "R" none [.elem "C" none [.elem "x" (some "int") []]]

/-- An aggregation whose source `Ghost` is not a declared class but whose
target `R` is the root. -/
def docC9 : XMLDoc :=
  { classes := [⟨"R", true, "", []⟩],
    aggregations := [⟨"Ghost", "R", "1"⟩] }

/-- Two aggregations with the same source `C`; the later one has an
unknown target. -/
def docC10 : XMLDoc :=
  { classes := [⟨"R", true, "", []⟩, ⟨"C", false, "", []⟩],
    aggregations := [⟨"C", "R", "0..1"⟩, ⟨"C", "Nowhere", "2..7"⟩] }

/-! ### The claims -/

/-- Claim C1: for all flat string-keyed mappings `base` and `patched`,
`apply(base, generate(base, patched))` yields a mapping equal to
`patched` (dict equality; the `KeysNodup` hypotheses are the Python dict
invariant). -/
theorem claim_C1 [DecidableEq V] (base patched : List (String × V))
    (hb : KeysNodup base) (hp : KeysNodup patched) :
    dictEq (applyDelta base (generateDelta base patched)) patched :=
  roundtrip hb hp

theorem claim_C1_witness :
    KeysNodup [("a", 1), ("b", 2)] ∧ KeysNodup [("b", 3), ("c", 4)] ∧
    dictEq (applyDelta [("a", 1), ("b", 2)]
      (generateDelta [("a", 1), ("b", 2)] [("b", 3), ("c", 4)])) [("b", 3), ("c", 4)] :=
  ⟨by decide, by decide,
    claim_C1 [("a", 1), ("b", 2)] [("b", 3), ("c", 4)] (by decide) (by decide)⟩

/-- Claim C2 (counterexample to the claim as stated): on a concrete model
with zero root classes, `generate_config_xml` does fail with the no-root
error, but `generate_meta_json` returns a normal result — refuting
"both render and metadata fail with NoRootFoundError; neither returns a
normal result". -/
theorem claim_C2_counterexample :
    docNoRoot.classes.all (fun c => !c.isRoot) = true ∧
    generate_config_xml docNoRoot 5 = .error .noRoot ∧
    (generate_meta_json docNoRoot).isOk = true :=
  ⟨rfl, rfl, rfl⟩

/-- Claim C2 (amended): for every model with zero root classes, render
fails with the no-root error at any recursion budget; metadata performs
no root check and returns a normal result whenever every multiplicity
token is well-formed. -/
theorem claim_C2 (doc : XMLDoc) (hroot : ∀ c ∈ doc.classes, c.isRoot = false) :
    (∀ fuel, generate_config_xml doc fuel = .error .noRoot) ∧
    ((∀ a ∈ doc.aggregations, (parseMult a.sourceMultiplicity).isOk = true) →
      (generate_meta_json doc).isOk = true) := by
  constructor
  · intro fuel
    unfold generate_config_xml
    rw [findRoot_eq_none (parseClasses_isRoot_false hroot)]
  · intro hm
    unfold generate_meta_json buildMultMap
    rcases multFold_ok_of_all hm [] with ⟨mm, hmm⟩
    rw [hmm]
    rfl

theorem claim_C2_witness :
    generate_config_xml docNoRoot 3 = .error .noRoot ∧
    (generate_meta_json docNoRoot).isOk = true := by
  have h := claim_C2 docNoRoot (by decide)
  exact ⟨h.1 3, h.2 (by decide)⟩

/-- Claim C3: the three delta parts are characterized by lookups — an
addition for exactly the keys of `patched` absent from `base` (with
`patched`'s value, in `patched`'s order: the additions form a sublist of
`patched`), a deletion for exactly the keys of `base` absent from
`patched` (in `base`'s key order), an update for exactly the common keys
with unequal values (carrying the two values, in `base`'s key order); a
key present in both with equal values appears in none of the three, and
`generate(m, m)` is the empty delta. -/
theorem claim_C3 [DecidableEq V] (base patched : List (String × V))
    (hp : KeysNodup patched) :
    (∀ k v, (k, v) ∈ (generateDelta base patched).additions ↔
        lookup patched k = some v ∧ lookup base k = none) ∧
    (generateDelta base patched).additions.Sublist patched ∧
    (∀ k, k ∈ (generateDelta base patched).deletions ↔
        (lookup base k).isSome = true ∧ lookup patched k = none) ∧
    (generateDelta base patched).deletions.Sublist (base.map Prod.fst) ∧
    (∀ u : Update V, u ∈ (generateDelta base patched).updates ↔
        lookup base u.key = some u.fromV ∧ lookup patched u.key = some u.toV ∧
          u.fromV ≠ u.toV) ∧
    ((generateDelta base patched).updates.map Update.key).Sublist (base.map Prod.fst) ∧
    (∀ k v, lookup base k = some v → lookup patched k = some v →
        (∀ w, (k, w) ∉ (generateDelta base patched).additions) ∧
        k ∉ (generateDelta base patched).deletions ∧
        (∀ u : Update V, u.key = k → u ∉ (generateDelta base patched).updates)) ∧
    (∀ m : List (String × V), generateDelta m m = ⟨[], [], []⟩) := by
  refine ⟨?_, ?_, ?_, ?_, ?_, ?_, ?_, ?_⟩
  · intro k v
    rw [mem_additions_iff]
    constructor
    · rintro ⟨hmem, hnone⟩
      exact ⟨lookup_eq_some_of_mem hp hmem, hnone⟩
    · rintro ⟨hsome, hnone⟩
      exact ⟨mem_of_lookup_eq_some hsome, hnone⟩
  · unfold generateDelta
    exact List.filter_sublist patched
  · intro k
    rw [mem_deletions_iff, lookup_isSome_iff]
  · unfold generateDelta
    exact List.filter_sublist _
  · exact fun u => mem_updates_iff base patched u
  · exact updates_key_sublist base patched
  · intro k v h1 h2
    refine ⟨?_, ?_, ?_⟩
    · intro w hw
      have := ((mem_additions_iff base patched k w).mp hw).2
      rw [h1] at this
      exact Option.noConfusion this
    · intro hd
      have := ((mem_deletions_iff base patched k).mp hd).2
      rw [h2] at this
      exact Option.noConfusion this
    · intro u hk hu
      obtain ⟨hb1, hb2, hb3⟩ := (mem_updates_iff base patched u).mp hu
      rw [hk, h1] at hb1
      rw [hk, h2] at hb2
      exact hb3 (by rw [← Option.some.inj hb1, ← Option.some.inj hb2])
  · exact generateDelta_self

theorem claim_C3_witness :
    KeysNodup [("b", 3), ("c", 4)] ∧
    (("c", 4) ∈ (generateDelta [("a", 1), ("b", 2)] [("b", 3), ("c", 4)]).additions ↔
      lookup [("b", 3), ("c", 4)] "c" = some 4 ∧ lookup [("a", 1), ("b", 2)] "c" = none) ∧
    generateDelta [("a", 1)] [("a", 1)] = ⟨[], [], []⟩ :=
  ⟨by decide, (claim_C3 [("a", 1), ("b", 2)] [("b", 3), ("c", 4)] (by decide)).1 "c" 4,
    (claim_C3 [("a", 1)] [("a", 1)] (by decide)).2.2.2.2.2.2.2 [("a", 1)]⟩

/-- Claim C4: `apply` is the fixed pipeline deletions → updates →
additions over a copy of the base; an addition reintroduces a key also
listed for deletion (additions win); deleting an absent key is a no-op;
an update whose key is absent is skipped, never inserted; and a key that
is deleted and not re-added looks up to nothing, whatever the updates. -/
theorem claim_C4 [DecidableEq V] (base : List (String × V)) (delta : Delta V)
    (k : String) (v : V) (u : Update V) :
    (applyDelta base delta =
      applyAdditions (applyUpdates (applyDeletions base delta.deletions) delta.updates)
        delta.additions) ∧
    (lookup (applyDelta base ⟨[(k, v)], [k], []⟩) k = some v) ∧
    (hasKey base k = false → applyDelta base ⟨[], [k], []⟩ = base) ∧
    (hasKey base u.key = false → applyDelta base ⟨[], [], [u]⟩ = base) ∧
    (k ∈ delta.deletions → (∀ a ∈ delta.additions, a.1 ≠ k) →
      lookup (applyDelta base delta) k = none) := by
  refine ⟨rfl, ?_, ?_, ?_, ?_⟩
  · unfold applyDelta
    rw [applyAdditions_cons, applyAdditions_nil, lookup_setKey, if_pos rfl]
  · intro h
    unfold applyDelta
    simp only [applyAdditions_nil, applyUpdates_nil, applyDeletions_cons, applyDeletions_nil]
    unfold delIfPresent
    rw [h]
    simp
  · intro h
    unfold applyDelta
    simp only [applyAdditions_nil, applyUpdates_cons, applyUpdates_nil, applyDeletions_nil]
    unfold updIfPresent
    rw [h]
    simp
  · intro hdel hadds
    unfold applyDelta
    rw [lookup_applyAdditions_of_not_mem hadds]
    apply lookup_applyUpdates_of_none
    rw [lookup_applyDeletions, if_pos hdel]

theorem claim_C4_witness :
    (lookup (applyDelta [("a", 1)] ⟨[("b", 2)], ["b"], []⟩) "b" = some 2) ∧
    (applyDelta [("a", 1)] ⟨[], ["z"], []⟩ = [("a", 1)]) ∧
    (applyDelta [("a", 1)] ⟨[], [], [⟨"z", 5, 6⟩]⟩ = [("a", 1)]) ∧
    (lookup (applyDelta [("a", 1)] ⟨[], ["a"], [⟨"a", 1, 7⟩]⟩) "a" = none) := by
  have h1 := claim_C4 [("a", 1)] (⟨[], ["a"], [⟨"a", 1, 7⟩]⟩ : Delta Nat) "b" 2 ⟨"z", 5, 6⟩
  have h2 := claim_C4 [("a", 1)] (⟨[], ["a"], [⟨"a", 1, 7⟩]⟩ : Delta Nat) "z" 0 ⟨"z", 5, 6⟩
  have h3 := claim_C4 [("a", 1)] (⟨[], ["a"], [⟨"a", 1, 7⟩]⟩ : Delta Nat) "a" 0 ⟨"z", 5, 6⟩
  exact ⟨h1.2.1, h2.2.2.1 (by decide), h2.2.2.2.1 (by decide),
    h3.2.2.2.2 (by decide) (by decide)⟩

theorem buildList_ok_of_all {f : String → Except Err XmlNode} {l : List String}
    (h : ∀ n ∈ l, ∃ t, f n = .ok t) : ∃ ts, buildList f l = .ok ts := by
  induction l with
  | nil => exact ⟨[], rfl⟩
  | cons m rest ih =>
    rcases h m (List.mem_cons_self m rest) with ⟨t, ht⟩
    rcases ih (fun n hn => h n (List.mem_cons_of_mem _ hn)) with ⟨ts, hts⟩
    refine ⟨t :: ts, ?_⟩
    unfold buildList
    rw [ht]
    dsimp only
    rw [hts]

/-- On models whose `children` graph admits a rank function (a witness of
acyclicity) and whose referenced child classes are all declared, the
recursive build succeeds once the fuel exceeds the start rank. -/
theorem buildX_total {classes : List (String × ClassInfo)} {d : String → Nat}
    (hrank : ∀ p ∈ classes, ∀ cm ∈ p.2.children,
      hasKey classes cm.1 = true ∧ d cm.1 < d p.1) :
    ∀ fuel name, hasKey classes name = true → d name < fuel →
      ∃ t, buildX classes fuel name = .ok t := by
  intro fuel
  induction fuel with
  | zero => exact fun name _ hd => absurd hd (Nat.not_lt_zero _)
  | succ fuel ih =>
    intro name hk hd
    have hsome : (lookup classes name).isSome = true := hk
    rcases Option.isSome_iff_exists.mp hsome with ⟨info, hinfo⟩
    have hmem : (name, info) ∈ classes := mem_of_lookup_eq_some hinfo
    have hkids : ∀ n ∈ info.children.map Prod.fst, ∃ t, buildX classes fuel n = .ok t := by
      intro n hn
      rcases List.mem_map.mp hn with ⟨⟨c, mu⟩, hcm, rfl⟩
      rcases hrank (name, info) hmem (c, mu) hcm with ⟨hkc, hdc⟩
      exact ih c hkc (Nat.lt_of_lt_of_le hdc (Nat.le_of_lt_succ hd))
    rcases buildList_ok_of_all hkids with ⟨kids, hkids2⟩
    refine ⟨.elem name none (info.attributes.map attrLeaf ++ kids), ?_⟩
    rw [buildX_succ, hinfo]
    dsimp only
    rw [hkids2]

/-- Claim C5: on an acyclic model (witnessed by a rank function on class
names) whose render finds a root, render produces a tree; a successfully
rendered tree is rooted at the root class's name; and every class's node
holds the attribute leaves (name = attribute name, text = type) before
the recursively built child subtrees; in particular the §8 scenario
renders to root `R` containing node `C` containing leaf `x` with text
`int`. -/
theorem claim_C5 :
    (∀ (classes : List (String × ClassInfo)) (fuel : Nat) (name : String)
        (info : ClassInfo) (t : XmlNode),
        lookup classes name = some info → buildX classes (fuel + 1) name = .ok t →
        ∃ kids, buildList (buildX classes fuel) (info.children.map Prod.fst) = .ok kids ∧
          t = .elem name none (info.attributes.map attrLeaf ++ kids)) ∧
    (∀ (doc : XMLDoc) (fuel : Nat) (t : XmlNode),
        generate_config_xml doc fuel = .ok t →
        ∃ r info kids, findRoot (parseClasses doc) = some r ∧
          lookup (parseClasses doc) r = some info ∧
          t = .elem r none (info.attributes.map attrLeaf ++ kids)) ∧
    (∀ (doc : XMLDoc) (d : String → Nat) (r : String),
        (∀ p ∈ parseClasses doc, ∀ cm ∈ p.2.children,
          hasKey (parseClasses doc) cm.1 = true ∧ d cm.1 < d p.1) →
        findRoot (parseClasses doc) = some r → r ≠ "" →
        ∀ fuel, d r < fuel → ∃ t, generate_config_xml doc fuel = .ok t) ∧
    generate_config_xml docC5 5 = .ok treeC5 := by
  refine ⟨?_, ?_, ?_, rfl⟩
  · intro classes fuel name info t hl h
    rcases buildX_succ_ok h with ⟨info2, kids, hl2, hb, ht⟩
    have hii : info2 = info := by
      rw [hl] at hl2
      exact (Option.some.inj hl2).symm
    subst hii
    exact ⟨kids, hb, ht⟩
  · intro doc fuel t h
    unfold generate_config_xml at h
    cases hf : findRoot (parseClasses doc) with
    | none => rw [hf] at h; exact absurd h (by simp)
    | some r =>
      rw [hf] at h
      dsimp only at h
      by_cases hre : r = ""
      · rw [if_pos hre] at h
        exact absurd h (by simp)
      · rw [if_neg hre] at h
        cases fuel with
        | zero => rw [buildX_zero] at h; exact absurd h (by simp)
        | succ f =>
          rcases buildX_succ_ok h with ⟨info, kids, hl, _, ht⟩
          exact ⟨r, info, kids, rfl, hl, ht⟩
  · intro doc d r hrank hfind hre fuel hd
    rcases Option.map_eq_some'.mp hfind with ⟨p, hfp, hp1⟩
    have hmem : p ∈ parseClasses doc := List.mem_of_find?_eq_some hfp
    have hkr : hasKey (parseClasses doc) r = true := by
      rw [← hp1]
      exact isSome_lookup_of_mem (show (p.1, p.2) ∈ parseClasses doc from hmem)
    rcases buildX_total hrank fuel r hkr hd with ⟨t, ht⟩
    refine ⟨t, ?_⟩
    unfold generate_config_xml
    rw [hfind]
    dsimp only
    rw [if_neg hre]
    exact ht

theorem claim_C5_witness :
    (∃ kids, buildList (buildX (parseClasses docC5) 4)
        (((⟨true, "", [], [("C", "0..5")]⟩ : ClassInfo).children).map Prod.fst) = .ok kids ∧
      treeC5 = .elem "R" none
        ((⟨true, "", [], [("C", "0..5")]⟩ : ClassInfo).attributes.map attrLeaf ++ kids)) ∧
    (∃ t, generate_config_xml docC5 2 = .ok t) ∧
    generate_config_xml docC5 5 = .ok treeC5 :=
  ⟨claim_C5.1 (parseClasses docC5) 4 "R" ⟨true, "", [], [("C", "0..5")]⟩ treeC5
      (by rfl) (by rfl),
    claim_C5.2.2.1 docC5 (fun n => if n = "R" then 1 else 0) "R" (by decide)
      (by rfl) (by decide) 2 (by decide),
    claim_C5.2.2.2⟩

theorem mkMetaEntry_className (mult : List (String × (String × String)))
    (name : String) (info : ClassInfo) : (mkMetaEntry mult name info).className = name := rfl

theorem mkMetaEntry_isRoot (mult : List (String × (String × String)))
    (name : String) (info : ClassInfo) : (mkMetaEntry mult name info).isRoot = info.isRoot := rfl

theorem mkMetaEntry_min (mult : List (String × (String × String)))
    (name : String) (info : ClassInfo) :
    (mkMetaEntry mult name info).min? =
      (if hasKey mult name && !info.isRoot then lookup mult name else none).map Prod.fst := rfl

theorem mkMetaEntry_max (mult : List (String × (String × String)))
    (name : String) (info : ClassInfo) :
    (mkMetaEntry mult name info).max? =
      (if hasKey mult name && !info.isRoot then lookup mult name else none).map Prod.snd := rfl

/-- Claim C6: in a metadata output, a root entry never carries `min`/`max`;
an entry whose class is named as source by no aggregation carries
neither; a non-root entry whose class is named as source by some
aggregation carries `min`/`max` obtained by the range-separator split of
the multiplicity of an aggregation naming it as source. -/
theorem claim_C6 (doc : XMLDoc) (entries : List MetaEntry)
    (h : generate_meta_json doc = .ok entries) (e : MetaEntry) (he : e ∈ entries) :
    (e.isRoot = true → e.min? = none ∧ e.max? = none) ∧
    ((∀ a ∈ doc.aggregations, a.source ≠ e.className) →
      e.min? = none ∧ e.max? = none) ∧
    (e.isRoot = false → ∀ a ∈ doc.aggregations, a.source = e.className →
      ∃ a' ∈ doc.aggregations, a'.source = e.className ∧
        ∃ mn mx, parseMult a'.sourceMultiplicity = .ok (mn, mx) ∧
          e.min? = some mn ∧ e.max? = some mx) := by
  unfold generate_meta_json at h
  cases hmm : buildMultMap doc.aggregations with
  | error err => rw [hmm] at h; exact absurd h (by simp)
  | ok mult =>
    rw [hmm] at h
    dsimp only at h
    rw [← Except.ok.inj h] at he
    rcases List.mem_map.mp he with ⟨p, hp, rfl⟩
    refine ⟨?_, ?_, ?_⟩
    · intro hroot
      have hroot2 : p.2.isRoot = true := hroot
      rw [mkMetaEntry_min, mkMetaEntry_max, hroot2]
      simp
    · intro hnos
      have hnone : lookup mult p.1 = none := by
        rw [lookup_multFold hmm p.1]
        have hfil : doc.aggregations.filter (fun a => a.source = p.1) = [] := by
          apply List.filter_eq_nil_iff.mpr
          intro a ha
          simp only [decide_eq_true_eq]
          exact fun he2 => hnos a ha he2
        rw [hfil]
        rfl
      rw [mkMetaEntry_min, mkMetaEntry_max]
      unfold hasKey
      rw [hnone]
      simp
    · intro hroot a ha hsrc
      have hroot2 : p.2.isRoot = false := hroot
      have hsrc2 : a.source = p.1 := hsrc
      have hmemf : a ∈ doc.aggregations.filter (fun a => a.source = p.1) :=
        List.mem_filter.mpr ⟨ha, by simp [hsrc2]⟩
      have hne : doc.aggregations.filter (fun a => a.source = p.1) ≠ [] :=
        List.ne_nil_of_mem hmemf
      have hla : (doc.aggregations.filter (fun a => a.source = p.1)).getLast?
          = some ((doc.aggregations.filter (fun a => a.source = p.1)).getLast hne) :=
        List.getLast?_eq_getLast_of_ne_nil hne
      set la := (doc.aggregations.filter (fun a => a.source = p.1)).getLast hne with hladef
      have hlamem : la ∈ doc.aggregations.filter (fun a => a.source = p.1) :=
        List.getLast_mem hne
      have hlaagg : la ∈ doc.aggregations := (List.mem_filter.mp hlamem).1
      have hlasrc : la.source = p.1 := by
        have := (List.mem_filter.mp hlamem).2
        simpa using this
      have hok : (parseMult la.sourceMultiplicity).isOk = true :=
        multFold_all_ok hmm la hlaagg
      have hpm : ∃ mn mx, parseMult la.sourceMultiplicity = .ok (mn, mx) := by
        cases hc : parseMult la.sourceMultiplicity with
        | error err =>
          rw [hc] at hok
          exact absurd hok (by simp [Except.isOk, Except.toBool])
        | ok mm =>
          obtain ⟨mn0, mx0⟩ := mm
          exact ⟨mn0, mx0, rfl⟩
      rcases hpm with ⟨mn, mx, hpm⟩
      have hlook : lookup mult p.1 = some (mn, mx) := by
        rw [lookup_multFold hmm p.1, hla]
        show (parseMult la.sourceMultiplicity).toOption = some (mn, mx)
        rw [hpm]
        rfl
      refine ⟨la, hlaagg, hlasrc, mn, mx, hpm, ?_, ?_⟩
      · rw [mkMetaEntry_min]
        unfold hasKey
        rw [hlook, hroot2]
        rfl
      · rw [mkMetaEntry_max]
        unfold hasKey
        rw [hlook, hroot2]
        rfl
theorem runDeletions_spec (r : Nat) (dels : List String) (h : DictHeap V)
    (hr : r < h.cells.length) :
    (runDeletions r dels h).cells.length = h.cells.length ∧
    readCell (runDeletions r dels h) r = applyDeletions (readCell h r) dels ∧
    ∀ j, j ≠ r → readCell (runDeletions r dels h) j = readCell h j :=
  foldl_writeCell_spec delIfPresent dels h r hr

theorem runUpdates_spec (r : Nat) (upds : List (Update V)) (h : DictHeap V)
    (hr : r < h.cells.length) :
    (runUpdates r upds h).cells.length = h.cells.length ∧
    readCell (runUpdates r upds h) r = applyUpdates (readCell h r) upds ∧
    ∀ j, j ≠ r → readCell (runUpdates r upds h) j = readCell h j :=
  foldl_writeCell_spec updIfPresent upds h r hr

theorem runAdditions_spec (r : Nat) (adds : List (String × V)) (h : DictHeap V)
    (hr : r < h.cells.length) :
    (runAdditions r adds h).cells.length = h.cells.length ∧
    readCell (runAdditions r adds h) r = applyAdditions (readCell h r) adds ∧
    ∀ j, j ≠ r → readCell (runAdditions r adds h) j = readCell h j :=
  foldl_writeCell_spec addStep adds h r hr

/-- The metadata entry the §8 scenario produces for class `C`. -/
def entryC5C : MetaEntry :=
  ⟨"C", "", false, some "0", some "5", [⟨"x", "int"⟩]⟩

theorem claim_C6_witness :
    ∃ a' ∈ docC5.aggregations, a'.source = entryC5C.className ∧
      ∃ mn mx, parseMult a'.sourceMultiplicity = .ok (mn, mx) ∧
        entryC5C.min? = some mn ∧ entryC5C.max? = some mx :=
  (claim_C6 docC5 [⟨"R", "", true, none, none, [⟨"C", "class"⟩]⟩, entryC5C]
      (by rfl) entryC5C (by decide)).2.2 (by rfl) ⟨"C", "R", "0..5"⟩
    (by decide) (by rfl)

/-- Claim C7: every aggregation whose target is a known class appends its
source/multiplicity pair to that class's `children` (so the final list is
exactly the matching aggregations in document order), and an aggregation
whose target matches no known class changes nothing: parsing succeeds
with the very same result. -/
theorem claim_C7 (doc : XMLDoc) :
    (∀ k info, lookup (parseClasses doc) k = some info →
      info.children = childPairs doc.aggregations k) ∧
    (∀ a : AggRec, hasKey (classesBase doc) a.target = false →
      parseClasses { doc with aggregations := doc.aggregations ++ [a] } =
        parseClasses doc) := by
  constructor
  · intro k info h
    rw [lookup_parseClasses] at h
    rcases Option.map_eq_some'.mp h with ⟨i, hi, heq⟩
    rw [← heq]
  · intro a ha
    have hcb : classesBase { doc with aggregations := doc.aggregations ++ [a] } =
        classesBase doc := rfl
    show (doc.aggregations ++ [a]).foldl addAgg
        (classesBase { doc with aggregations := doc.aggregations ++ [a] }) =
      parseClasses doc
    rw [hcb, List.foldl_append]
    show addAgg (doc.aggregations.foldl addAgg (classesBase doc)) a = parseClasses doc
    have hk : hasKey (doc.aggregations.foldl addAgg (classesBase doc)) a.target = false := by
      have hpk := hasKey_parseClasses doc a.target
      unfold parseClasses at hpk
      rw [hpk]
      exact ha
    rw [addAgg_not_hasKey hk]
    rfl

theorem claim_C7_witness :
    (⟨true, "", [], [("C", "0..5")]⟩ : ClassInfo).children =
      childPairs docC5.aggregations "R" ∧
    parseClasses { docC5 with aggregations := docC5.aggregations ++ [⟨"X", "Qq", "1"⟩] } =
      parseClasses docC5 :=
  ⟨(claim_C7 docC5).1 "R" ⟨true, "", [], [("C", "0..5")]⟩ (by rfl),
    (claim_C7 docC5).2 ⟨"X", "Qq", "1"⟩ (by rfl)⟩

/-- Claim C8: run as a heap program, `apply` never touches the caller's
dict cell: after the run the base cell holds exactly what it held before,
and the fresh result cell holds `applyDelta` of the base's contents. -/
theorem claim_C8 (h : DictHeap V) (baseAddr : Nat) (delta : Delta V)
    (hb : baseAddr < h.cells.length) :
    readCell (applyRun h baseAddr delta).1 baseAddr = readCell h baseAddr ∧
    readCell (applyRun h baseAddr delta).1 (applyRun h baseAddr delta).2 =
      applyDelta (readCell h baseAddr) delta := by
  have happ : applyRun h baseAddr delta =
      (runAdditions h.cells.length delta.additions
        (runUpdates h.cells.length delta.updates
          (runDeletions h.cells.length delta.deletions
            ⟨h.cells ++ [readCell h baseAddr]⟩)), h.cells.length) := rfl
  have hbr : baseAddr ≠ h.cells.length := Nat.ne_of_lt hb
  have hr1 : h.cells.length <
      (DictHeap.mk (h.cells ++ [readCell h baseAddr]) : DictHeap V).cells.length := by
    simp
  obtain ⟨l1, r1, j1⟩ := runDeletions_spec h.cells.length delta.deletions _ hr1
  have hr2 : h.cells.length <
      (runDeletions h.cells.length delta.deletions
        ⟨h.cells ++ [readCell h baseAddr]⟩).cells.length := by
    rw [l1]
    exact hr1
  obtain ⟨l2, r2, j2⟩ := runUpdates_spec h.cells.length delta.updates _ hr2
  have hr3 : h.cells.length <
      (runUpdates h.cells.length delta.updates
        (runDeletions h.cells.length delta.deletions
          ⟨h.cells ++ [readCell h baseAddr]⟩)).cells.length := by
    rw [l2]
    exact hr2
  obtain ⟨l3, r3, j3⟩ := runAdditions_spec h.cells.length delta.additions _ hr3
  have hread_base : readCell (DictHeap.mk (h.cells ++ [readCell h baseAddr]) : DictHeap V)
      baseAddr = readCell h baseAddr := by
    show (h.cells ++ [readCell h baseAddr]).getD baseAddr [] = readCell h baseAddr
    rw [List.getD_append h.cells _ [] baseAddr hb]
    rfl
  have hread_r : readCell (DictHeap.mk (h.cells ++ [readCell h baseAddr]) : DictHeap V)
      h.cells.length = readCell h baseAddr := by
    show (h.cells ++ [readCell h baseAddr]).getD h.cells.length [] = readCell h baseAddr
    rw [List.getD_append_right h.cells _ [] h.cells.length (Nat.le_refl _), Nat.sub_self]
    rfl
  rw [happ]
  constructor
  · show readCell (runAdditions h.cells.length delta.additions
        (runUpdates h.cells.length delta.updates
          (runDeletions h.cells.length delta.deletions
            ⟨h.cells ++ [readCell h baseAddr]⟩))) baseAddr = readCell h baseAddr
    rw [j3 baseAddr hbr, j2 baseAddr hbr, j1 baseAddr hbr]
    exact hread_base
  · show readCell (runAdditions h.cells.length delta.additions
        (runUpdates h.cells.length delta.updates
          (runDeletions h.cells.length delta.deletions
            ⟨h.cells ++ [readCell h baseAddr]⟩))) h.cells.length =
      applyDelta (readCell h baseAddr) delta
    rw [r3, r2, r1, hread_r]
    rfl

theorem claim_C8_witness :
    0 < (DictHeap.mk [[("a", 1), ("b", 2)]] : DictHeap Nat).cells.length ∧
    readCell (applyRun (DictHeap.mk [[("a", 1), ("b", 2)]] : DictHeap Nat) 0
        ⟨[("c", 4)], ["a"], [⟨"b", 2, 3⟩]⟩).1 0 =
      readCell (DictHeap.mk [[("a", 1), ("b", 2)]] : DictHeap Nat) 0 ∧
    readCell (applyRun (DictHeap.mk [[("a", 1), ("b", 2)]] : DictHeap Nat) 0
        ⟨[("c", 4)], ["a"], [⟨"b", 2, 3⟩]⟩).1
      (applyRun (DictHeap.mk [[("a", 1), ("b", 2)]] : DictHeap Nat) 0
        ⟨[("c", 4)], ["a"], [⟨"b", 2, 3⟩]⟩).2 =
      applyDelta [("a", 1), ("b", 2)] ⟨[("c", 4)], ["a"], [⟨"b", 2, 3⟩]⟩ := by
  have h := claim_C8 (DictHeap.mk [[("a", 1), ("b", 2)]] : DictHeap Nat) 0
    ⟨[("c", 4)], ["a"], [⟨"b", 2, 3⟩]⟩ (by decide)
  exact ⟨by decide, h.1, h.2⟩

/-- Claim C9: when some aggregation's target is a declared class reachable
from the root that render starts at, but its source names no declared
class, render never returns a tree at any recursion budget — the
recursive lookup of that child name fails. -/
theorem claim_C9 (doc : XMLDoc) (r tgt src mu : String) (info : ClassInfo)
    (hfind : findRoot (parseClasses doc) = some r) (hre : r ≠ "")
    (hreach : Reach (parseClasses doc) r tgt)
    (hlk : lookup (parseClasses doc) tgt = some info)
    (hchild : (src, mu) ∈ info.children)
    (hmiss : lookup (parseClasses doc) src = none) :
    ∀ fuel t, generate_config_xml doc fuel ≠ .ok t := by
  intro fuel t h
  unfold generate_config_xml at h
  rw [hfind] at h
  dsimp only at h
  rw [if_neg hre] at h
  have hs : Reach (parseClasses doc) r src := Reach.step hreach hlk hchild
  rcases reach_buildX_ok hs fuel t h with ⟨f2, t2, h2⟩
  have hsome := buildX_ok_lookup h2
  rw [hmiss] at hsome
  exact absurd hsome (by simp)

theorem claim_C9_witness :
    generate_config_xml docC9 3 ≠ .ok (.elem "R" none []) :=
  claim_C9 docC9 "R" "R" "Ghost" "1" ⟨true, "", [], [("Ghost", "1")]⟩
    (by rfl) (by decide) (Reach.refl "R") (by rfl) (by decide) (by rfl)
    3 (.elem "R" none [])

/-- Claim C10: the multiplicity map ignores aggregation targets entirely
(rewriting every target leaves it unchanged), and a non-root class's
`min`/`max` come from the last aggregation in document order whose source
is the class — even when that aggregation's target names no known class. -/
theorem claim_C10 (doc : XMLDoc) (c : String) (info : ClassInfo) (la : AggRec)
    (mn mx : String)
    (hlk : lookup (parseClasses doc) c = some info) (hroot : info.isRoot = false)
    (hlast : (doc.aggregations.filter (fun a => a.source = c)).getLast? = some la)
    (hok : ∀ a ∈ doc.aggregations, (parseMult a.sourceMultiplicity).isOk = true)
    (hpm : parseMult la.sourceMultiplicity = .ok (mn, mx)) :
    (∀ f : AggRec → String,
      buildMultMap (doc.aggregations.map (fun a => { a with target := f a })) =
        buildMultMap doc.aggregations) ∧
    ∃ entries, generate_meta_json doc = .ok entries ∧
      ∀ e ∈ entries, e.className = c → e.min? = some mn ∧ e.max? = some mx := by
  refine ⟨fun f => buildMultMap_target_free doc.aggregations f, ?_⟩
  rcases multFold_ok_of_all hok [] with ⟨mult, hmult⟩
  have hmm : buildMultMap doc.aggregations = .ok mult := hmult
  refine ⟨(parseClasses doc).map (fun p => mkMetaEntry mult p.1 p.2), ?_, ?_⟩
  · unfold generate_meta_json
    rw [hmm]
  · intro e he hcn
    rcases List.mem_map.mp he with ⟨p, hp, rfl⟩
    have hp1 : p.1 = c := hcn
    have hpinfo : p.2 = info := by
      have hl2 : lookup (parseClasses doc) c = some p.2 := by
        rw [← hp1]
        exact lookup_eq_some_of_mem (keysNodup_parseClasses doc)
          (show (p.1, p.2) ∈ parseClasses doc from hp)
      rw [hlk] at hl2
      exact (Option.some.inj hl2).symm
    have hlook : lookup mult c = some (mn, mx) := by
      rw [lookup_multFold hmult c, hlast]
      show (parseMult la.sourceMultiplicity).toOption = some (mn, mx)
      rw [hpm]
      rfl
    have hroot2 : p.2.isRoot = false := by rw [hpinfo]; exact hroot
    constructor
    · rw [mkMetaEntry_min]
      unfold hasKey
      rw [hp1, hlook, hroot2]
      rfl
    · rw [mkMetaEntry_max]
      unfold hasKey
      rw [hp1, hlook, hroot2]
      rfl

theorem claim_C10_witness :
    ∃ entries, generate_meta_json docC10 = .ok entries ∧
      ∀ e ∈ entries, e.className = "C" → e.min? = some "2" ∧ e.max? = some "7" :=
  (claim_C10 docC10 "C" ⟨false, "", [], []⟩ ⟨"C", "Nowhere", "2..7"⟩ "2" "7"
    (by rfl) rfl (by rfl) (by decide) (by rfl)).2

end Impulse
